import Mathlib

/-!
Shallow embedding of `arithmetic_parser.cpp` (module
gaivanuk-alexander-arithmetic-parser): a recursive descent parser for
single-variable arithmetic expressions that compiles to a postfix (RPN)
instruction sequence, plus the stack-machine evaluator.

Modelling conventions:
* C `double` values are modelled as exact rationals (`ℚ`).  Every claim that
  evaluates concretely only uses `+ - *` on small integer-valued doubles and
  one exact decimal literal, where IEEE double arithmetic is exact, so the
  rational model agrees with the C behaviour on everything the claims touch.
* The C library `pow` and the table of transcendental functions
  (`cos`, `sin`, ...) are abstract parameters of the evaluator (`pw`, `fns`):
  no claim depends on their values, only on their arity (unary / binary).
* The input cursor `const char *data` becomes an explicit `List Char`
  remainder; the NUL terminator becomes the empty list.
* The C++ exceptions thrown by the lexer and parser (all caught in `parse`)
  become `Option`: `none` is "an exception was thrown".
* The mutually recursive grammar procedures take a fuel argument; `parse`
  supplies fuel that is ample for its input (recursion depth in the C code is
  bounded by the input length).
-/

namespace ArithmeticParser

/-- Token discriminants (`token_t` in the header).  The first seven
constructors are in the order of the `delims` table because `getToken`
(case `TS_DELIM`, line 180) casts the index found in `delims` directly to
`token_t`. -/
inductive token_t where
  | T_POW
  | T_PLUS
  | T_MINUS
  | T_MUL
  | T_DIV
  | T_LPAREN
  | T_RPAREN
  | T_END
  | T_NUMBER
  | T_X
  | T_FUNC
  | T_NEGATE
deriving DecidableEq, Repr

open token_t

/-- A token: a discriminant plus a real payload (used only by `T_NUMBER`)
and an integer payload (used only by `T_FUNC`, as an index into the function
table).  Unused payloads are 0. -/
structure Token where
  type : token_t
  realValue : ℚ
  intValue : Nat
deriving DecidableEq, Repr

/-- `Token(t)` constructor of the C++ class: payloads default to zero. -/
def Token.ofType (t : token_t) : Token := ⟨t, 0, 0⟩

/-- C `isspace` in the default locale, by character code: space (32) and
the five control whitespace characters `\t \n \v \f \r` (codes 9..13). -/
def isspace (c : Char) : Bool := c.toNat = 32 || (9 ≤ c.toNat && c.toNat ≤ 13)

/-- C `isdigit`, by character code: `'0'` (48) .. `'9'` (57). -/
def isdigit (c : Char) : Bool := 48 ≤ c.toNat && c.toNat ≤ 57

/-- C `isalpha` in the default locale, by character code:
`'a'..'z'` (97..122) or `'A'..'Z'` (65..90). -/
def isalpha (c : Char) : Bool :=
  (97 ≤ c.toNat && c.toNat ≤ 122) || (65 ≤ c.toNat && c.toNat ≤ 90)

/-- C `tolower`, by character code: add 32 to an upper-case letter. -/
def tolower (c : Char) : Char :=
  if 65 ≤ c.toNat && c.toNat ≤ 90 then Char.ofNat (c.toNat + 32) else c

/-- `ArithmeticParser::delims` (line 32). -/
def delims : List Char := ['^', '+', '-', '*', '/', '(', ')']

/-- `ArithmeticParser::funcnames` (line 36). -/
def funcnames : List String :=
  ["cos", "sin", "tg", "ctg", "arcsin", "arccos", "arctg", "ln", "lg", "abs"]

/-- `std::find` followed by `std::distance`: index of the first occurrence
of `a` in the list, `none` when absent. -/
def findIndex {α : Type} [DecidableEq α] (a : α) : List α → Option Nat
  | [] => none
  | b :: bs => if b = a then some 0 else (findIndex a bs).map (· + 1)

/-- The `(token_t)index` cast in the `TS_DELIM` case: the delimiter table
index is the token discriminant.  Indices are always < 7 here; the catch-all
arm is never reached. -/
def tokOfIdx : Nat → token_t
  | 0 => T_POW
  | 1 => T_PLUS
  | 2 => T_MINUS
  | 3 => T_MUL
  | 4 => T_DIV
  | 5 => T_LPAREN
  | _ => T_RPAREN

/-- The integer-accumulation loop of the `TS_NUMBER` state
(`while (isdigit(c)) n = n * 10 + c - '0';`): consumes a maximal run of
digits, extending the accumulator `n`; returns the new accumulator and the
remaining input. -/
def intLoop (n : Nat) : List Char → Nat × List Char
  | [] => (n, [])
  | c :: cs => if isdigit c then intLoop (n * 10 + (c.toNat - 48)) cs else (n, c :: cs)

/-- Value of a digit string read most-significant-first (what the C integer
accumulation computes starting from 0). -/
def natOfDigits (ds : List Char) : Nat :=
  ds.foldl (fun n c => n * 10 + (c.toNat - 48)) 0

/-- Model of `atof(buf)` where `buf` is `"0." ++ ds` for a nonempty digit
string `ds` (the only way the C code builds `buf` for `atof`): the exact
fractional value.  (`atof` rounds this to the nearest double; doubles are
modelled as exact rationals.) -/
def atofFrac (ds : List Char) : ℚ := (natOfDigits ds : ℚ) / 10 ^ ds.length

/-- `ArithmeticParser::getToken` (lines 109..185) on the remaining input:
returns the next token and the advanced cursor, or `none` when the lexer
throws (unknown character, unknown function name, or a decimal point not
followed by a digit).  The `TS_*` states of the C state machine appear as
the branches; `buf` is the transient scratch buffer and has no observable
state. -/
def getToken : List Char → Option (Token × List Char)
  | [] => some (Token.ofType T_END, [])
  | c :: cs =>
    if isspace c then getToken cs
    else if tolower c = 'x' then some (Token.ofType T_X, cs)
    else if isdigit c then
      -- TS_NUMBER, with the first digit already consumed into n
      match intLoop (c.toNat - 48) cs with
      | (n, rest) =>
        match rest with
        | '.' :: rest2 =>
          -- require a digit after the point, then take the maximal digit run
          match rest2.takeWhile isdigit with
          | [] => none
          | ds => some (⟨T_NUMBER, (n : ℚ) + atofFrac ds, 0⟩, rest2.dropWhile isdigit)
        | _ => some (⟨T_NUMBER, (n : ℚ), 0⟩, rest)
    else if isalpha c then
      -- TS_FUNCNAME: maximal run of letters, looked up in funcnames
      match findIndex (String.mk ((c :: cs).takeWhile isalpha)) funcnames with
      | some i => some (⟨T_FUNC, 0, i⟩, (c :: cs).dropWhile isalpha)
      | none => none
    else
      -- TS_DELIM
      match findIndex c delims with
      | some i => some (Token.ofType (tokOfIdx i), cs)
      | none => none

/-- The mutable parser state used by the recursive descent procedures:
the one-token lookahead `token`, the input cursor `data` (remaining
characters) and the output instruction sequence `rpn` (built by
`push_back`, i.e. appending on the right). -/
structure PState where
  token : Token
  data : List Char
  rpn : List Token
deriving DecidableEq, Repr

/-- Modelled from the spec: `nextToken` (declared in the header
`include/arithmetic_parser.h`, which is not part of the source tree) pulls
the next token from the lexer into the lookahead slot; a lexical error
propagates. -/
def nextToken (st : PState) : Option PState :=
  match getToken st.data with
  | some (t, rest) => some ⟨t, rest, st.rpn⟩
  | none => none

/-- Modelled from the spec: `expectToken(t)` (declared in the header)
fails — throws, i.e. `none` — when the lookahead's discriminant is not `t`,
and changes no state on success. -/
def expectToken (t : token_t) (st : PState) : Option PState :=
  if st.token.type = t then some st else none

/-- `push_back` on the `rpn` member. -/
def pushRpn (st : PState) (t : Token) : PState := ⟨st.token, st.data, st.rpn ++ [t]⟩

mutual

/-- `ArithmeticParser::EXPR` (lines 187..195): `EXPR2 { (+|-) EXPR2 }`.
A thrown error is `none`, which `Option.bind` propagates like the C++
exception.  The fuel argument only bounds recursion depth; `parse` passes
ample fuel. -/
def EXPR : Nat → PState → Option PState
  | 0, _ => none
  | n + 1, st => (EXPR2 n st).bind (EXPRloop n)

/-- The `while (token.type == T_PLUS || token.type == T_MINUS)` loop
in `EXPR`: remember the operator, consume it, parse the next `EXPR2`,
emit the operator. -/
def EXPRloop : Nat → PState → Option PState
  | 0, _ => none
  | n + 1, st =>
    if st.token.type = T_PLUS ∨ st.token.type = T_MINUS then
      (nextToken st).bind fun st1 =>
        (EXPR2 n st1).bind fun st2 =>
          EXPRloop n (pushRpn st2 (Token.ofType st.token.type))
    else some st

/-- `ArithmeticParser::EXPR2` (lines 197..205): `EXPR3 { (*|/) EXPR3 }`. -/
def EXPR2 : Nat → PState → Option PState
  | 0, _ => none
  | n + 1, st => (EXPR3 n st).bind (EXPR2loop n)

/-- The `while (token.type == T_MUL || token.type == T_DIV)` loop
in `EXPR2`. -/
def EXPR2loop : Nat → PState → Option PState
  | 0, _ => none
  | n + 1, st =>
    if st.token.type = T_MUL ∨ st.token.type = T_DIV then
      (nextToken st).bind fun st1 =>
        (EXPR3 n st1).bind fun st2 =>
          EXPR2loop n (pushRpn st2 (Token.ofType st.token.type))
    else some st

/-- `ArithmeticParser::EXPR3` (lines 207..214): `EXPR4 [ ^ EXPR4 ]` —
a single optional exponent step, not a loop. -/
def EXPR3 : Nat → PState → Option PState
  | 0, _ => none
  | n + 1, st =>
    (EXPR4 n st).bind fun st1 =>
      if st1.token.type = T_POW then
        (nextToken st1).bind fun st2 =>
          (EXPR4 n st2).bind fun st3 =>
            some (pushRpn st3 (Token.ofType T_POW))
      else some st1

/-- `ArithmeticParser::EXPR4` (lines 216..255): variable, number with
optional implicit multiplication, function application, parenthesized
expression, or unary minus; any other lookahead throws. -/
def EXPR4 : Nat → PState → Option PState
  | 0, _ => none
  | n + 1, st =>
    if st.token.type = T_FUNC then
      (nextToken st).bind fun st1 =>
        (expectToken T_LPAREN st1).bind fun st2 =>
          (nextToken st2).bind fun st3 =>
            (EXPR n st3).bind fun st4 =>
              (expectToken T_RPAREN st4).bind fun st5 =>
                (nextToken st5).bind fun st6 =>
                  some (pushRpn st6 ⟨T_FUNC, 0, st.token.intValue⟩)
    else if st.token.type = T_X then
      nextToken (pushRpn st (Token.ofType T_X))
    else if st.token.type = T_NUMBER then
      (nextToken (pushRpn st st.token)).bind fun st1 =>
        if st1.token.type = T_X then
          nextToken (pushRpn (pushRpn st1 (Token.ofType T_X)) (Token.ofType T_MUL))
        else if st1.token.type = T_LPAREN then
          (nextToken st1).bind fun st2 =>
            (EXPR n st2).bind fun st3 =>
              (expectToken T_RPAREN st3).bind fun st4 =>
                (nextToken st4).bind fun st5 =>
                  some (pushRpn st5 (Token.ofType T_MUL))
        else some st1
    else if st.token.type = T_LPAREN then
      (nextToken st).bind fun st1 =>
        (EXPR n st1).bind fun st2 =>
          (expectToken T_RPAREN st2).bind fun st3 =>
            nextToken st3
    else if st.token.type = T_MINUS then
      (nextToken st).bind fun st1 =>
        (EXPR4 n st1).bind fun st2 =>
          some (pushRpn st2 (Token.ofType T_NEGATE))
    else none

end

/-- Fuel that is ample for an input of length `k`: the C recursion depth is
bounded by the grammar nesting, itself bounded by the input length. -/
def fuelFor (k : Nat) : Nat := 8 * k + 16

/-- `ArithmeticParser::parse` (lines 45..66): clear the instruction
sequence, prime the lookahead, parse `EXPR`, and require `T_END` as the
trailing lookahead.  Returns `some rpn` where the C function returns `true`
with `rpn` as the retained member, `none` where it returns `false` (any
thrown error is caught there and the half-built sequence is cleared). -/
def parse (s : String) : Option (List Token) :=
  (nextToken ⟨Token.ofType T_END, s.toList, []⟩).bind fun st0 =>
    (EXPR (fuelFor s.length) st0).bind fun st1 =>
      (expectToken T_END st1).bind fun st2 =>
        some st2.rpn

/-- The parser object's retained `rpn` member right after a `parse(s)` call:
the compiled sequence on success, cleared (empty) on failure. -/
def rpnAfterParse (s : String) : List Token := (parse s).getD []

/-- A `parse` call as a state transformer on the retained `rpn` member:
line 47 (`rpn = vector<Token>()`) clears the previous sequence
unconditionally before anything else, so the result never depends on
`prev`.  Returns the C boolean paired with the new member value. -/
def parseCall (_prev : List Token) (s : String) : Bool × List Token :=
  match parse s with
  | some r => (true, r)
  | none => (false, [])

/-- One step of the evaluator's instruction loop (lines 73..104) on the
operand stack (head = top).  `none` models popping an empty stack
(`nums.top()`/`nums.pop()` on an empty `std::stack`, undefined behaviour).
Tokens that are neither operands nor handled operators (`T_END`,
`T_LPAREN`, `T_RPAREN` — never produced by the parser) fall through the
`if` chain after popping two operands and push nothing, as in the C code. -/
def evalStep (fns : Nat → ℚ → ℚ) (pw : ℚ → ℚ → ℚ) (x : ℚ)
    (st : List ℚ) (t : Token) : Option (List ℚ) :=
  match t.type with
  | T_NUMBER => some (t.realValue :: st)
  | T_X => some (x :: st)
  | T_NEGATE =>
    match st with
    | op2 :: rest => some (-op2 :: rest)
    | [] => none
  | T_FUNC =>
    match st with
    | op2 :: rest => some (fns t.intValue op2 :: rest)
    | [] => none
  | T_PLUS =>
    match st with
    | op2 :: op1 :: rest => some ((op1 + op2) :: rest)
    | _ => none
  | T_MINUS =>
    match st with
    | op2 :: op1 :: rest => some ((op1 - op2) :: rest)
    | _ => none
  | T_MUL =>
    match st with
    | op2 :: op1 :: rest => some ((op1 * op2) :: rest)
    | _ => none
  | T_DIV =>
    match st with
    | op2 :: op1 :: rest => some ((op1 / op2) :: rest)
    | _ => none
  | T_POW =>
    match st with
    | op2 :: op1 :: rest => some (pw op1 op2 :: rest)
    | _ => none
  | _ =>
    match st with
    | _ :: _ :: rest => some rest
    | _ => none

/-- The evaluator's `for` loop over the instruction sequence, from an
arbitrary starting stack. -/
def runRPN (fns : Nat → ℚ → ℚ) (pw : ℚ → ℚ → ℚ) (x : ℚ) :
    List Token → List ℚ → Option (List ℚ)
  | [], st => some st
  | t :: ts, st =>
    match evalStep fns pw x st t with
    | some st1 => runRPN fns pw x ts st1
    | none => none

/-- `ArithmeticParser::evaluate` (lines 68..107): `0.0` for an empty
sequence, otherwise run the stack machine from an empty stack and return
the final `nums.top()`; `none` models the undefined behaviour of a stack
underflow (empty final stack, or a pop during the loop). -/
def evaluate (fns : Nat → ℚ → ℚ) (pw : ℚ → ℚ → ℚ)
    (rpn : List Token) (x : ℚ) : Option ℚ :=
  if rpn.isEmpty then some 0
  else
    match runRPN fns pw x rpn [] with
    | some st => st.head?
    | none => none

/-- `evaluate` as a call on the parser object: the method is declared
`const` and touches only the local stack `nums`, so the retained state is
returned unchanged alongside the result. -/
def evaluateCall (fns : Nat → ℚ → ℚ) (pw : ℚ → ℚ → ℚ)
    (rpn : List Token) (x : ℚ) : Option ℚ × List Token :=
  (evaluate fns pw rpn x, rpn)

/-! ### Stack discipline of postfix programs -/

/-- A postfix program that, on every stack, runs without underflow and
pushes exactly one net value, leaving the rest of the stack untouched. -/
def Prog1 (p : List Token) : Prop :=
  ∀ fns pw x st, ∃ v, runRPN fns pw x p st = some (v :: st)

/-- A postfix program that, on every stack with at least one value, runs
without underflow, only consumes and replaces the top value, and leaves the
rest untouched (the shape of the code emitted by the `EXPR`/`EXPR2`
while-loops). -/
def Prog0 (p : List Token) : Prop :=
  ∀ fns pw x v st, ∃ w, runRPN fns pw x p (v :: st) = some (w :: st)

/-- The five binary-operator discriminants. -/
def IsBin (tt : token_t) : Prop :=
  tt = T_PLUS ∨ tt = T_MINUS ∨ tt = T_MUL ∨ tt = T_DIV ∨ tt = T_POW

/-- A grammar procedure that only ever appends a `Prog1` segment to the
instruction sequence. -/
def Ext1 (f : PState → Option PState) : Prop :=
  ∀ st st', f st = some st' → ∃ seg, st'.rpn = st.rpn ++ seg ∧ Prog1 seg

/-- A grammar procedure that only ever appends a `Prog0` segment to the
instruction sequence (the while-loops). -/
def Ext0 (f : PState → Option PState) : Prop :=
  ∀ st st', f st = some st' → ∃ seg, st'.rpn = st.rpn ++ seg ∧ Prog0 seg

/-- The parser instance state across `k + 1` successive `evaluate` calls
with the same argument: thread the retained `rpn` member through each call
and return the last call's result paired with the final member value. -/
def evalRepeat (fns : Nat → ℚ → ℚ) (pw : ℚ → ℚ → ℚ) (x : ℚ) :
    Nat → List Token → Option ℚ × List Token
  | 0, r => evaluateCall fns pw r x
  | k + 1, r => evalRepeat fns pw x k (evaluateCall fns pw r x).2

/-- Test input of the spec scenarios: the bare variable. -/
def inX : String := "x"

/-- Test input: re-parse scenario, second formula. -/
def inXplus1 : String := "x+1"

/-- Test input: implicit multiplication number-variable. -/
def in3x : String := "3x"

/-- Test input: implicit multiplication number-parenthesis. -/
def in2paren : String := "2(x+1)"

/-- Test input: decimal literal. -/
def in15x : String := "1.5*x"

/-- Test input: chained exponentiation without parentheses. -/
def inPowTower : String := "2^3^4"

/-- Test input: number immediately followed by a function name. -/
def in2cos : String := "2cos(x)"

/-- Test input: upper-case function name. -/
def inCOS : String := "COS(x)"

/-- Test input: lower-case function name, upper-case variable. -/
def incosX : String := "cos(X)"

/-- Test input: a lone operator (rejected). -/
def inPlus : String := "+"

/-- Test input: unary minus under exponentiation. -/
def inNegXSq : String := "-x^2"

/-- A sample interpretation of the function table, for witnesses. -/
def fns0 : Nat → ℚ → ℚ := fun _ v => v

/-- A sample interpretation of the C library `pow`, for witnesses. -/
def pw0 : ℚ → ℚ → ℚ := fun a _ => a

/-- A sample interpretation of `pow` that is exact at exponent 2, as the C
`pow` is: `pow(a, 2.0) = a * a` exactly in IEEE arithmetic. -/
def pwMul : ℚ → ℚ → ℚ := fun a _ => a * a

theorem runRPN_append (fns : Nat → ℚ → ℚ) (pw : ℚ → ℚ → ℚ) (x : ℚ)
    (p q : List Token) (st : List ℚ) :
    runRPN fns pw x (p ++ q) st =
      (runRPN fns pw x p st).bind (runRPN fns pw x q) := by
  induction p generalizing st with
  | nil => simp [runRPN]
  | cons t ts ih =>
    simp only [List.cons_append, runRPN]
    cases evalStep fns pw x st t with
    | none => rfl
    | some st1 => exact ih st1

theorem evalStep_bin (tt : token_t) (h : IsBin tt) (fns : Nat → ℚ → ℚ)
    (pw : ℚ → ℚ → ℚ) (x a b : ℚ) (s : List ℚ) :
    ∃ c, evalStep fns pw x (b :: a :: s) (Token.ofType tt) = some (c :: s) := by
  rcases h with h | h | h | h | h <;> subst h <;> exact ⟨_, rfl⟩

theorem prog1_push (t : Token) (h : t.type = T_NUMBER ∨ t.type = T_X) :
    Prog1 [t] := by
  intro fns pw x st
  rcases h with h | h
  · exact ⟨t.realValue, by simp [runRPN, evalStep, h]⟩
  · exact ⟨x, by simp [runRPN, evalStep, h]⟩

theorem prog1_unary (p : List Token) (t : Token) (hp : Prog1 p)
    (h : t.type = T_NEGATE ∨ t.type = T_FUNC) : Prog1 (p ++ [t]) := by
  intro fns pw x st
  obtain ⟨a, ha⟩ := hp fns pw x st
  rcases h with h | h
  · exact ⟨-a, by rw [runRPN_append, ha, Option.some_bind]; simp [runRPN, evalStep, h]⟩
  · exact ⟨fns t.intValue a, by
      rw [runRPN_append, ha, Option.some_bind]; simp [runRPN, evalStep, h]⟩

theorem prog1_bin (p q : List Token) (tt : token_t) (hp : Prog1 p)
    (hq : Prog1 q) (h : IsBin tt) : Prog1 (p ++ (q ++ [Token.ofType tt])) := by
  intro fns pw x st
  obtain ⟨a, ha⟩ := hp fns pw x st
  obtain ⟨b, hb⟩ := hq fns pw x (a :: st)
  obtain ⟨c, hc⟩ := evalStep_bin tt h fns pw x a b st
  refine ⟨c, ?_⟩
  rw [runRPN_append, ha, Option.some_bind, runRPN_append, hb, Option.some_bind]
  simp [runRPN, hc]

theorem prog0_nil : Prog0 [] := by
  intro fns pw x v st
  exact ⟨v, rfl⟩

theorem prog1_append_prog0 (p q : List Token) (hp : Prog1 p) (hq : Prog0 q) :
    Prog1 (p ++ q) := by
  intro fns pw x st
  obtain ⟨a, ha⟩ := hp fns pw x st
  obtain ⟨w, hw⟩ := hq fns pw x a st
  exact ⟨w, by rw [runRPN_append, ha, Option.some_bind, hw]⟩

theorem prog0_step (q r : List Token) (tt : token_t) (hq : Prog1 q)
    (h : IsBin tt) (hr : Prog0 r) : Prog0 (q ++ (Token.ofType tt :: r)) := by
  intro fns pw x v st
  obtain ⟨b, hb⟩ := hq fns pw x (v :: st)
  obtain ⟨c, hc⟩ := evalStep_bin tt h fns pw x v b st
  obtain ⟨w, hw⟩ := hr fns pw x c st
  refine ⟨w, ?_⟩
  rw [runRPN_append, hb, Option.some_bind]
  simp only [runRPN, hc, hw]

theorem prog1_ne_nil (p : List Token) (hp : Prog1 p) : p ≠ [] := by
  intro hnil
  obtain ⟨v, hv⟩ := hp (fun _ v => v) (fun a _ => a) 0 []
  subst hnil
  simp [runRPN] at hv

/-! ### The parser only emits stack-balanced postfix code -/

/-- `nextToken` replaces the lookahead and cursor but never touches the
instruction sequence. -/
theorem nextToken_rpn (st st' : PState) (h : nextToken st = some st') :
    st'.rpn = st.rpn := by
  unfold nextToken at h
  cases hg : getToken st.data with
  | none => rw [hg] at h; cases h
  | some pr =>
    obtain ⟨t, r⟩ := pr
    rw [hg] at h
    cases h
    rfl

/-- `expectToken` changes no state on success. -/
theorem expectToken_eq (t : token_t) (st st' : PState)
    (h : expectToken t st = some st') : st' = st := by
  unfold expectToken at h
  by_cases hc : st.token.type = t
  · rw [if_pos hc] at h; cases h; rfl
  · rw [if_neg hc] at h; cases h

theorem EXPR_step (n : Nat) (h2 : Ext1 (EXPR2 n)) (hl : Ext0 (EXPRloop n)) :
    Ext1 (EXPR (n + 1)) := by
  intro st st' h
  simp only [EXPR, Option.bind_eq_some] at h
  obtain ⟨st1, h1, hrest⟩ := h
  obtain ⟨seg1, hs1, hp1⟩ := h2 st st1 h1
  obtain ⟨seg2, hs2, hp2⟩ := hl st1 st' hrest
  exact ⟨seg1 ++ seg2, by rw [hs2, hs1, List.append_assoc],
    prog1_append_prog0 _ _ hp1 hp2⟩

theorem EXPRloop_step (n : Nat) (h2 : Ext1 (EXPR2 n)) (hl : Ext0 (EXPRloop n)) :
    Ext0 (EXPRloop (n + 1)) := by
  intro st st' h
  simp only [EXPRloop] at h
  by_cases hc : st.token.type = T_PLUS ∨ st.token.type = T_MINUS
  · rw [if_pos hc] at h
    simp only [Option.bind_eq_some] at h
    obtain ⟨st1, hn, st2, he, hrec⟩ := h
    obtain ⟨segq, hsq, hpq⟩ := h2 st1 st2 he
    obtain ⟨segr, hsr, hpr⟩ := hl _ st' hrec
    have hr1 : st1.rpn = st.rpn := nextToken_rpn st st1 hn
    have hbin : IsBin st.token.type := by
      rcases hc with hc | hc
      · exact Or.inl hc
      · exact Or.inr (Or.inl hc)
    refine ⟨segq ++ (Token.ofType st.token.type :: segr), ?_,
      prog0_step _ _ _ hpq hbin hpr⟩
    rw [hsr]
    simp only [pushRpn]
    rw [hsq, hr1]
    simp [List.append_assoc]
  · rw [if_neg hc] at h
    obtain rfl : st = st' := Option.some.inj h
    exact ⟨[], by simp, prog0_nil⟩

theorem EXPR2_step (n : Nat) (h3 : Ext1 (EXPR3 n)) (hl : Ext0 (EXPR2loop n)) :
    Ext1 (EXPR2 (n + 1)) := by
  intro st st' h
  simp only [EXPR2, Option.bind_eq_some] at h
  obtain ⟨st1, h1, hrest⟩ := h
  obtain ⟨seg1, hs1, hp1⟩ := h3 st st1 h1
  obtain ⟨seg2, hs2, hp2⟩ := hl st1 st' hrest
  exact ⟨seg1 ++ seg2, by rw [hs2, hs1, List.append_assoc],
    prog1_append_prog0 _ _ hp1 hp2⟩

theorem EXPR2loop_step (n : Nat) (h3 : Ext1 (EXPR3 n)) (hl : Ext0 (EXPR2loop n)) :
    Ext0 (EXPR2loop (n + 1)) := by
  intro st st' h
  simp only [EXPR2loop] at h
  by_cases hc : st.token.type = T_MUL ∨ st.token.type = T_DIV
  · rw [if_pos hc] at h
    simp only [Option.bind_eq_some] at h
    obtain ⟨st1, hn, st2, he, hrec⟩ := h
    obtain ⟨segq, hsq, hpq⟩ := h3 st1 st2 he
    obtain ⟨segr, hsr, hpr⟩ := hl _ st' hrec
    have hr1 : st1.rpn = st.rpn := nextToken_rpn st st1 hn
    have hbin : IsBin st.token.type := by
      rcases hc with hc | hc
      · exact Or.inr (Or.inr (Or.inl hc))
      · exact Or.inr (Or.inr (Or.inr (Or.inl hc)))
    refine ⟨segq ++ (Token.ofType st.token.type :: segr), ?_,
      prog0_step _ _ _ hpq hbin hpr⟩
    rw [hsr]
    simp only [pushRpn]
    rw [hsq, hr1]
    simp [List.append_assoc]
  · rw [if_neg hc] at h
    obtain rfl : st = st' := Option.some.inj h
    exact ⟨[], by simp, prog0_nil⟩

theorem EXPR3_step (n : Nat) (h4 : Ext1 (EXPR4 n)) : Ext1 (EXPR3 (n + 1)) := by
  intro st st' h
  simp only [EXPR3, Option.bind_eq_some] at h
  obtain ⟨st1, h1, hrest⟩ := h
  obtain ⟨seg1, hs1, hp1⟩ := h4 st st1 h1
  by_cases hc : st1.token.type = T_POW
  · rw [if_pos hc] at hrest
    simp only [Option.bind_eq_some] at hrest
    obtain ⟨st2, hn, st3, h2, hsome⟩ := hrest
    obtain rfl : pushRpn st3 (Token.ofType T_POW) = st' := Option.some.inj hsome
    obtain ⟨seg2, hs2, hp2⟩ := h4 st2 st3 h2
    have hr : st2.rpn = st1.rpn := nextToken_rpn _ _ hn
    refine ⟨seg1 ++ (seg2 ++ [Token.ofType T_POW]), ?_,
      prog1_bin _ _ _ hp1 hp2 (Or.inr (Or.inr (Or.inr (Or.inr rfl))))⟩
    simp only [pushRpn]
    rw [hs2, hr, hs1]
    simp [List.append_assoc]
  · rw [if_neg hc] at hrest
    obtain rfl : st1 = st' := Option.some.inj hrest
    exact ⟨seg1, hs1, hp1⟩

theorem EXPR4_step (n : Nat) (hE : Ext1 (EXPR n)) (h4 : Ext1 (EXPR4 n)) :
    Ext1 (EXPR4 (n + 1)) := by
  intro st st' h
  simp only [EXPR4, Option.bind_eq_some] at h
  by_cases hf : st.token.type = T_FUNC
  · rw [if_pos hf] at h
    simp only [Option.bind_eq_some] at h
    obtain ⟨st1, hn1, st2, he1, st3, hn2, st4, hE1, st5, he2, st6, hn3, hsome⟩ := h
    obtain rfl : pushRpn st6 ⟨T_FUNC, 0, st.token.intValue⟩ = st' :=
      Option.some.inj hsome
    obtain ⟨seg, hs, hp⟩ := hE st3 st4 hE1
    have e1 : st1.rpn = st.rpn := nextToken_rpn _ _ hn1
    have e2 : st2 = st1 := expectToken_eq _ _ _ he1
    have e3 : st3.rpn = st2.rpn := nextToken_rpn _ _ hn2
    have e4 : st5 = st4 := expectToken_eq _ _ _ he2
    have e5 : st6.rpn = st5.rpn := nextToken_rpn _ _ hn3
    refine ⟨seg ++ [(⟨T_FUNC, 0, st.token.intValue⟩ : Token)], ?_,
      prog1_unary _ _ hp (Or.inr rfl)⟩
    simp only [pushRpn]
    rw [e5, e4, hs, e3, e2, e1]
    simp [List.append_assoc]
  · rw [if_neg hf] at h
    by_cases hx : st.token.type = T_X
    · rw [if_pos hx] at h
      have e1 : st'.rpn = (pushRpn st (Token.ofType T_X)).rpn := nextToken_rpn _ _ h
      exact ⟨[Token.ofType T_X], e1, prog1_push _ (Or.inr rfl)⟩
    · rw [if_neg hx] at h
      by_cases hnum : st.token.type = T_NUMBER
      · rw [if_pos hnum] at h
        simp only [Option.bind_eq_some] at h
        obtain ⟨st1, hn1, h⟩ := h
        have e1 : st1.rpn = st.rpn ++ [st.token] := nextToken_rpn _ _ hn1
        by_cases hx1 : st1.token.type = T_X
        · rw [if_pos hx1] at h
          have e2 : st'.rpn =
              (pushRpn (pushRpn st1 (Token.ofType T_X)) (Token.ofType T_MUL)).rpn :=
            nextToken_rpn _ _ h
          refine ⟨[st.token] ++ ([Token.ofType T_X] ++ [Token.ofType T_MUL]), ?_,
            prog1_bin _ _ _ (prog1_push _ (Or.inl hnum)) (prog1_push _ (Or.inr rfl))
              (Or.inr (Or.inr (Or.inl rfl)))⟩
          rw [e2]
          simp only [pushRpn]
          rw [e1]
          simp [List.append_assoc]
        · rw [if_neg hx1] at h
          by_cases hl1 : st1.token.type = T_LPAREN
          · rw [if_pos hl1] at h
            simp only [Option.bind_eq_some] at h
            obtain ⟨st2, hn2, st3, hE1, st4, he1, st5, hn3, hsome⟩ := h
            obtain rfl : pushRpn st5 (Token.ofType T_MUL) = st' :=
              Option.some.inj hsome
            obtain ⟨seg, hs, hp⟩ := hE st2 st3 hE1
            have e2 : st2.rpn = st1.rpn := nextToken_rpn _ _ hn2
            have e3 : st4 = st3 := expectToken_eq _ _ _ he1
            have e4 : st5.rpn = st4.rpn := nextToken_rpn _ _ hn3
            refine ⟨[st.token] ++ (seg ++ [Token.ofType T_MUL]), ?_,
              prog1_bin _ _ _ (prog1_push _ (Or.inl hnum)) hp
                (Or.inr (Or.inr (Or.inl rfl)))⟩
            simp only [pushRpn]
            rw [e4, e3, hs, e2, e1]
            simp [List.append_assoc]
          · rw [if_neg hl1] at h
            obtain rfl : st1 = st' := Option.some.inj h
            exact ⟨[st.token], e1, prog1_push _ (Or.inl hnum)⟩
      · rw [if_neg hnum] at h
        by_cases hlp : st.token.type = T_LPAREN
        · rw [if_pos hlp] at h
          simp only [Option.bind_eq_some] at h
          obtain ⟨st1, hn1, st2, hE1, st3, he1, hn3⟩ := h
          obtain ⟨seg, hs, hp⟩ := hE st1 st2 hE1
          have e1 : st1.rpn = st.rpn := nextToken_rpn _ _ hn1
          have e2 : st3 = st2 := expectToken_eq _ _ _ he1
          have e3 : st'.rpn = st3.rpn := nextToken_rpn _ _ hn3
          exact ⟨seg, by rw [e3, e2, hs, e1], hp⟩
        · rw [if_neg hlp] at h
          by_cases hm : st.token.type = T_MINUS
          · rw [if_pos hm] at h
            simp only [Option.bind_eq_some] at h
            obtain ⟨st1, hn1, st2, h41, hsome⟩ := h
            obtain rfl : pushRpn st2 (Token.ofType T_NEGATE) = st' :=
              Option.some.inj hsome
            obtain ⟨seg, hs, hp⟩ := h4 st1 st2 h41
            have e1 : st1.rpn = st.rpn := nextToken_rpn _ _ hn1
            refine ⟨seg ++ [Token.ofType T_NEGATE], ?_,
              prog1_unary _ _ hp (Or.inl rfl)⟩
            simp only [pushRpn]
            rw [hs, e1]
            simp [List.append_assoc]
          · rw [if_neg hm] at h
            cases h

/-- Every piece of the recursive descent parser, at every fuel, only
appends stack-balanced code to the instruction sequence. -/
theorem parser_inv (n : Nat) :
    Ext1 (EXPR n) ∧ Ext0 (EXPRloop n) ∧ Ext1 (EXPR2 n) ∧
      Ext0 (EXPR2loop n) ∧ Ext1 (EXPR3 n) ∧ Ext1 (EXPR4 n) := by
  induction n with
  | zero =>
    refine ⟨?_, ?_, ?_, ?_, ?_, ?_⟩ <;> intro st st' h <;>
      simp [EXPR, EXPRloop, EXPR2, EXPR2loop, EXPR3, EXPR4] at h
  | succ n ih =>
    obtain ⟨hE, hEl, h2, h2l, h3, h4⟩ := ih
    exact ⟨EXPR_step n h2 hEl, EXPRloop_step n h2 hEl, EXPR2_step n h3 h2l,
      EXPR2loop_step n h3 h2l, EXPR3_step n h4, EXPR4_step n hE h4⟩

/-- A successful `parse` leaves a `Prog1` instruction sequence: it pushes
exactly one net value on any stack and never underflows. -/
theorem parse_prog1 (s : String) (p : List Token) (h : parse s = some p) :
    Prog1 p := by
  unfold parse at h
  simp only [Option.bind_eq_some] at h
  obtain ⟨st0, hn, st1, hE, st2, hx, hsome⟩ := h
  obtain rfl : st2.rpn = p := Option.some.inj hsome
  have h0 : st0.rpn = [] := nextToken_rpn _ _ hn
  obtain ⟨seg, hs, hp⟩ := (parser_inv (fuelFor s.length)).1 st0 st1 hE
  have e : st2 = st1 := expectToken_eq _ _ _ hx
  rw [e, hs, h0]
  simpa using hp

/-- A digit is not whitespace. -/
theorem isdigit_not_isspace (c : Char) (h : isdigit c = true) : isspace c = false := by
  simp [isdigit] at h
  simp [isspace]
  omega

/-- A digit is not (any case of) the variable symbol. -/
theorem isdigit_tolower_ne_x (c : Char) (h : isdigit c = true) :
    ¬ tolower c = 'x' := by
  simp [isdigit] at h
  intro hx
  unfold tolower at hx
  rw [if_neg (by simp; omega)] at hx
  have : c.toNat = 120 := by rw [hx]; rfl
  omega

/-- The integer-accumulation loop consumes exactly a maximal digit run,
folding the digits onto the accumulator. -/
theorem intLoop_eq (ds : List Char) (n : Nat) (rest : List Char)
    (hds : ∀ c ∈ ds, isdigit c = true)
    (hrest : ∀ c cs, rest = c :: cs → isdigit c = false) :
    intLoop n (ds ++ rest) =
      (ds.foldl (fun m c => m * 10 + (c.toNat - 48)) n, rest) := by
  induction ds generalizing n with
  | nil =>
    cases rest with
    | nil => rfl
    | cons c cs => simp [intLoop, hrest c cs rfl]
  | cons d ds ih =>
    have hd : isdigit d = true := hds d (List.mem_cons_self d ds)
    simp only [List.cons_append, intLoop, hd, if_true, List.foldl_cons]
    exact ih (n * 10 + (d.toNat - 48)) (fun c hc => hds c (List.mem_cons_of_mem d hc))

/-- A decimal literal `intPart . digits` lexes to a single NUMBER token
carrying the standard decimal value. -/
theorem getToken_decimal (c d : Char) (is fs : List Char)
    (hc : isdigit c = true) (his : ∀ e ∈ is, isdigit e = true)
    (hd : isdigit d = true) (hfs : ∀ e ∈ fs, isdigit e = true) :
    getToken ((c :: is) ++ '.' :: d :: fs) =
      some (⟨T_NUMBER, (natOfDigits (c :: is) : ℚ) +
        (natOfDigits (d :: fs) : ℚ) / 10 ^ (d :: fs).length, 0⟩, []) := by
  have h1 : isspace c = false := isdigit_not_isspace c hc
  have h2 : ¬ tolower c = 'x' := isdigit_tolower_ne_x c hc
  have hdot : ∀ e cs, ('.' :: d :: fs : List Char) = e :: cs → isdigit e = false := by
    intro e cs he
    injection he with he1 _
    rw [← he1]
    rfl
  have hIL := intLoop_eq is (c.toNat - 48) ('.' :: d :: fs) his hdot
  have htw : (d :: fs).takeWhile isdigit = d :: fs :=
    List.takeWhile_eq_self_iff.mpr (by
      intro e he
      rcases List.mem_cons.mp he with he | he
      · rw [he]; exact hd
      · exact hfs e he)
  have hdw : (d :: fs).dropWhile isdigit = [] :=
    List.dropWhile_eq_nil_iff.mpr (by
      intro e he
      rcases List.mem_cons.mp he with he | he
      · rw [he]; exact hd
      · exact hfs e he)
  have hfold : natOfDigits (c :: is) =
      is.foldl (fun m e => m * 10 + (e.toNat - 48)) (c.toNat - 48) := by
    simp [natOfDigits]
  simp only [List.cons_append, getToken, h1, Bool.false_eq_true, if_false, h2,
    hc, if_true, hIL]
  simp only [List.append_eq, hIL]
  simp only [htw, hdw]
  rw [hfold]
  simp [atofFrac]

/-! ### The claims -/

/-- C1: on every input string accepted by `parse`, the compiled postfix
sequence is stack-balanced: for every `x` (and every interpretation of the
C `pow` and of the function table) the stack machine runs from the empty
stack without ever popping an empty stack, finishes with exactly one value
on the stack, and `evaluate` returns that value. -/
theorem parse_stack_balanced (s : String) (p : List Token)
    (h : parse s = some p) (fns : Nat → ℚ → ℚ) (pw : ℚ → ℚ → ℚ) (x : ℚ) :
    ∃ v, runRPN fns pw x p [] = some [v] ∧ evaluate fns pw p x = some v := by
  have hp := parse_prog1 s p h
  obtain ⟨v, hv⟩ := hp fns pw x []
  refine ⟨v, hv, ?_⟩
  have hne := prog1_ne_nil p hp
  cases p with
  | nil => exact absurd rfl hne
  | cons t ts =>
    unfold evaluate
    rw [if_neg (by simp), hv]
    rfl

/-- Witness for C1, at the input string `"x"`. -/
theorem parse_stack_balanced_witness :
    ∃ v, runRPN fns0 pw0 0 [Token.ofType T_X] [] = some [v] ∧
      evaluate fns0 pw0 [Token.ofType T_X] 0 = some v :=
  parse_stack_balanced inX [Token.ofType T_X] rfl fns0 pw0 0

/-- C2: whenever `parse` fails, the retained instruction sequence is left
empty and every subsequent `evaluate(x)` returns `0.0`; `evaluate(x)` also
returns `0.0` on the empty sequence held before any successful parse. -/
theorem parse_fail_clears_and_evaluate_zero (s : String) (h : parse s = none)
    (fns : Nat → ℚ → ℚ) (pw : ℚ → ℚ → ℚ) (x : ℚ) :
    rpnAfterParse s = [] ∧ evaluate fns pw (rpnAfterParse s) x = some 0 ∧
      evaluate fns pw [] x = some 0 := by
  have h1 : rpnAfterParse s = [] := by unfold rpnAfterParse; rw [h]; rfl
  exact ⟨h1, by rw [h1]; rfl, rfl⟩

/-- Witness for C2, at the rejected input string `"+"`. -/
theorem parse_fail_clears_and_evaluate_zero_witness :
    rpnAfterParse inPlus = [] ∧ evaluate fns0 pw0 (rpnAfterParse inPlus) 5 = some 0 ∧
      evaluate fns0 pw0 [] 5 = some 0 :=
  parse_fail_clears_and_evaluate_zero inPlus rfl fns0 pw0 5

/-- C3: a NUMBER immediately followed by VARIABLE or by `(` is implicit
multiplication, with MUL emitted after both operands: `parse "3x"` succeeds
with postfix `NUMBER VARIABLE MUL` and evaluates to `6` at `x = 2`, and
`parse "2(x+1)"` succeeds with `MUL` emitted after the sub-expression and
evaluates to `8` at `x = 3`. -/
theorem implicit_multiplication (fns : Nat → ℚ → ℚ) (pw : ℚ → ℚ → ℚ) :
    parse in3x = some [⟨T_NUMBER, 3, 0⟩, Token.ofType T_X, Token.ofType T_MUL] ∧
    evaluate fns pw [⟨T_NUMBER, 3, 0⟩, Token.ofType T_X, Token.ofType T_MUL] 2 =
      some 6 ∧
    parse in2paren = some [⟨T_NUMBER, 2, 0⟩, Token.ofType T_X, ⟨T_NUMBER, 1, 0⟩,
      Token.ofType T_PLUS, Token.ofType T_MUL] ∧
    evaluate fns pw [⟨T_NUMBER, 2, 0⟩, Token.ofType T_X, ⟨T_NUMBER, 1, 0⟩,
      Token.ofType T_PLUS, Token.ofType T_MUL] 3 = some 8 :=
  ⟨rfl, by norm_num [evaluate, runRPN, evalStep, Token.ofType], rfl,
    by norm_num [evaluate, runRPN, evalStep, Token.ofType]⟩

/-- C5: `EXPR3` performs at most one optional exponent step, so two
consecutive exponentiations without parentheses are rejected. -/
theorem chained_pow_rejected : parse inPowTower = none := rfl

/-- C6: `parse` clears the previously retained instruction sequence
unconditionally, so after `parse "x"` then `parse "x+1"`, evaluation at
`x = 5` reflects only the second formula and returns `6`, whatever the
instance held before. -/
theorem reparse_overwrites (prev : List Token) (fns : Nat → ℚ → ℚ)
    (pw : ℚ → ℚ → ℚ) :
    (parseCall prev inX).1 = true ∧
    (parseCall (parseCall prev inX).2 inXplus1).1 = true ∧
    evaluate fns pw (parseCall (parseCall prev inX).2 inXplus1).2 5 = some 6 := by
  refine ⟨rfl, rfl, ?_⟩
  show evaluate fns pw [Token.ofType T_X, ⟨T_NUMBER, 1, 0⟩, Token.ofType T_PLUS] 5 =
    some 6
  norm_num [evaluate, runRPN, evalStep, Token.ofType]

/-- C7: `evaluate` is `const` — it modifies neither the compiled sequence
nor any other parser state — so any number of repeated `evaluate` calls
with the same `x` return the identical result and leave the retained
sequence unchanged. -/
theorem evaluate_no_mutation (fns : Nat → ℚ → ℚ) (pw : ℚ → ℚ → ℚ)
    (r : List Token) (x : ℚ) (k : Nat) :
    evalRepeat fns pw x k r = (evaluate fns pw r x, r) := by
  induction k with
  | zero => rfl
  | succ k ih => simpa [evalRepeat, evaluateCall] using ih

/-- C8: unary minus binds tighter than exponentiation: `parse "-x^2"`
emits NEGATE before the POW step, so evaluation computes `pow(-x, 2)`,
which is `(-x) * (-x)` for any `pow` exact at exponent 2 — e.g. `4` at
`x = 2` — not `-(x^2)`. -/
theorem unary_minus_binds_tighter_than_pow (fns : Nat → ℚ → ℚ)
    (pw : ℚ → ℚ → ℚ) (hpw : ∀ a : ℚ, pw a 2 = a * a) (x : ℚ) :
    parse inNegXSq = some [Token.ofType T_X, Token.ofType T_NEGATE,
      ⟨T_NUMBER, 2, 0⟩, Token.ofType T_POW] ∧
    evaluate fns pw [Token.ofType T_X, Token.ofType T_NEGATE,
      ⟨T_NUMBER, 2, 0⟩, Token.ofType T_POW] x = some (-x * -x) ∧
    evaluate fns pw [Token.ofType T_X, Token.ofType T_NEGATE,
      ⟨T_NUMBER, 2, 0⟩, Token.ofType T_POW] 2 = some 4 := by
  refine ⟨rfl, ?_, ?_⟩
  · norm_num [evaluate, runRPN, evalStep, Token.ofType, hpw]
  · norm_num [evaluate, runRPN, evalStep, Token.ofType, hpw]

/-- Witness for C8, with `pow` interpreted as squaring, at `x = 5`. -/
theorem unary_minus_binds_tighter_than_pow_witness :
    parse inNegXSq = some [Token.ofType T_X, Token.ofType T_NEGATE,
      ⟨T_NUMBER, 2, 0⟩, Token.ofType T_POW] ∧
    evaluate fns0 pwMul [Token.ofType T_X, Token.ofType T_NEGATE,
      ⟨T_NUMBER, 2, 0⟩, Token.ofType T_POW] 5 = some (-5 * -5) ∧
    evaluate fns0 pwMul [Token.ofType T_X, Token.ofType T_NEGATE,
      ⟨T_NUMBER, 2, 0⟩, Token.ofType T_POW] 2 = some 4 :=
  unary_minus_binds_tighter_than_pow fns0 pwMul (fun _ => rfl) 5

/-- C9: implicit multiplication applies only to a NUMBER followed by
VARIABLE or `(` — a NUMBER immediately followed by a function name leaves
the FUNCTION token as a stray lookahead and the whole input is rejected. -/
theorem number_before_function_rejected : parse in2cos = none := rfl

/-- C10: function-name recognition is case-sensitive while the variable is
case-insensitive: `parse "COS(x)"` fails, `parse "cos(X)"` succeeds, and
every name in the function table lexes, in its exact spelling, to the
FUNCTION token carrying that name's table index. -/
theorem funcname_case_sensitive :
    parse inCOS = none ∧
    parse incosX = some [Token.ofType T_X, ⟨T_FUNC, 0, 0⟩] ∧
    ∀ i : Fin funcnames.length,
      getToken (funcnames.get i).toList = some (⟨T_FUNC, 0, (i : Nat)⟩, []) := by
  refine ⟨rfl, rfl, ?_⟩
  decide


/-- C4: a decimal literal of the form `intPart.digits` lexes to a single
NUMBER token whose value is `intPart + atof("0." ++ digits)`, the standard
decimal value; in particular `parse "1.5*x"` succeeds and evaluates to `3`
at `x = 2`. -/
theorem decimal_literal (c d : Char) (is fs : List Char)
    (hc : isdigit c = true) (his : ∀ e ∈ is, isdigit e = true)
    (hd : isdigit d = true) (hfs : ∀ e ∈ fs, isdigit e = true)
    (fns : Nat → ℚ → ℚ) (pw : ℚ → ℚ → ℚ) :
    getToken ((c :: is) ++ '.' :: d :: fs) =
      some (⟨T_NUMBER, (natOfDigits (c :: is) : ℚ) +
        (natOfDigits (d :: fs) : ℚ) / 10 ^ (d :: fs).length, 0⟩, []) ∧
    parse in15x = some [⟨T_NUMBER, 3 / 2, 0⟩, Token.ofType T_X, Token.ofType T_MUL] ∧
    evaluate fns pw [⟨T_NUMBER, 3 / 2, 0⟩, Token.ofType T_X, Token.ofType T_MUL] 2 =
      some 3 := by
  have h0 : parse in15x =
      some [⟨T_NUMBER, 1 + 5 / 10 ^ 1, 0⟩, Token.ofType T_X, Token.ofType T_MUL] := rfl
  have h1 : (1 + 5 / 10 ^ 1 : ℚ) = 3 / 2 := by norm_num
  refine ⟨getToken_decimal c d is fs hc his hd hfs, ?_, ?_⟩
  · rw [h0, h1]
  · norm_num [evaluate, runRPN, evalStep, Token.ofType]

/-- Witness for C4, at the literal `1.5`. -/
theorem decimal_literal_witness :
    getToken (('1' :: ([] : List Char)) ++ '.' :: '5' :: []) =
      some (⟨T_NUMBER, (natOfDigits ['1'] : ℚ) +
        (natOfDigits ['5'] : ℚ) / 10 ^ (['5'] : List Char).length, 0⟩, []) ∧
    parse in15x = some [⟨T_NUMBER, 3 / 2, 0⟩, Token.ofType T_X, Token.ofType T_MUL] ∧
    evaluate fns0 pw0 [⟨T_NUMBER, 3 / 2, 0⟩, Token.ofType T_X, Token.ofType T_MUL] 2 =
      some 3 :=
  decimal_literal '1' '5' [] [] rfl (by simp) rfl (by simp) fns0 pw0

end ArithmeticParser
